import Mathlib

/-!
# Verification of the `zeppelin_core` stream cipher

Shallow embedding of `src/hash.rs` (the Balloon keystream generator) and
`src/cipher.rs` (the `StreamCipher` cipher and the `encrypt` / `decrypt_salt` /
`decrypt` protocol layer).

Bytes are modelled as `Nat` (the program only XORs them, which never
overflows a `u8`).  The external SHA3-512 primitive is an explicit function
parameter `H : List Nat → List Nat`; the Rust code drives one reusable
incremental hasher, so each `finalize_fixed_reset` corresponds to `H`
applied to the concatenation of the `update` segments since the previous
reset.  Alongside the state each generator operation also returns the trace
of hash invocations it performed, each invocation recorded as its list of
`update` segments — this is pure instrumentation of the same control flow,
used to state claims about what goes into each hash call.

The external Argon2 KDF is an explicit parameter
`KDF : List Nat → List Nat → Option (List Nat)`; `none` models
`derive_password` returning `Err`.
-/

set_option maxHeartbeats 1000000

/-- `u64::to_ne_bytes` (`Balloon::int_to_arr` in `hash.rs`): the 8 bytes of a
64-bit integer, least-significant first. -/
def intToArr (v : Nat) : List Nat :=
  (List.range 8).map fun i => v / 256 ^ i % 256

/-- `Balloon::arr_to_int` in `hash.rs`: read 8 bytes back as an integer,
least-significant first (inverse of `intToArr`). -/
def arrToInt (a : List Nat) : Nat :=
  (List.range 8).foldr (fun i acc => a.getD i 0 + 256 * acc) 0

/-- The Balloon hasher state (`struct Balloon` in `hash.rs`).  The reusable
`hash: Sha3_512` context is not part of the state: it is always reset at the
end of every invocation, so each invocation appears as one application of
the `H` parameter. -/
structure Balloon where
  buffer : List (List Nat)
  salt : List Nat
  step_delta : Nat
  cnt : Nat
  pos : Nat
deriving Repr, DecidableEq

/-- The `for i in 0..self.step_delta` loop inside `Balloon::step_internal`
(`hash.rs` lines 92–111), recursing over the list of loop indices.
Returns the updated buffer, the updated counter, and the trace of hash
invocations (two per iteration: the index-derivation hash and the block
update). -/
def deltaLoop (H : List Nat → List Nat) (salt : List Nat)
    (buffer : List (List Nat)) (pos cnt : Nat) :
    List Nat → List (List Nat) × Nat × List (List (List Nat))
  | [] => (buffer, cnt, [])
  | i :: rest =>
      let s_cost := buffer.length
      let tmp := H (intToArr i ++ intToArr cnt ++ salt)
      let other := arrToInt (tmp.take 8) % s_cost
      let newBlock :=
        H (intToArr (cnt + 1) ++ buffer.getD pos [] ++ buffer.getD other [])
      let callA : List (List Nat) := [intToArr i, intToArr cnt, salt]
      let callB : List (List Nat) :=
        [intToArr (cnt + 1), buffer.getD pos [], buffer.getD other []]
      let out := deltaLoop H salt (buffer.set pos newBlock) pos (cnt + 2) rest
      (out.1, out.2.1, callA :: callB :: out.2.2)

/-- `Balloon::step_internal` (`hash.rs` lines 75–116).  Returns the block at
the current position after mixing (before the position advances), the new
state, and the trace of hash invocations. -/
def Balloon.step_internal (H : List Nat → List Nat) (b : Balloon) :
    List Nat × Balloon × List (List (List Nat)) :=
  let s_cost := b.buffer.length
  let prev : List Nat :=
    if b.pos = 0 then b.buffer.getD (s_cost - 1) [] else b.buffer.getD b.pos []
  let newBlock := H (prev ++ intToArr b.cnt ++ b.buffer.getD b.pos [])
  let call1 : List (List Nat) := [prev, intToArr b.cnt, b.buffer.getD b.pos []]
  let loopOut :=
    deltaLoop H b.salt (b.buffer.set b.pos newBlock) b.pos (b.cnt + 1)
      (List.range b.step_delta)
  let res := loopOut.1.getD b.pos []
  (res,
   { b with buffer := loopOut.1, cnt := loopOut.2.1, pos := (b.pos + 1) % s_cost },
   call1 :: loopOut.2.2)

/-- The `for m in 1..s_cost` fill loop of `Balloon::new` (`hash.rs` lines
52–57): `block[m] = H(counter++ ∥ block[m-1])`. -/
def fillLoop (H : List Nat → List Nat) (buffer : List (List Nat)) (cnt : Nat) :
    List Nat → List (List Nat) × Nat × List (List (List Nat))
  | [] => (buffer, cnt, [])
  | m :: rest =>
      let blk := H (intToArr cnt ++ buffer.getD (m - 1) [])
      let call : List (List Nat) := [intToArr cnt, buffer.getD (m - 1) []]
      let out := fillLoop H (buffer.set m blk) (cnt + 1) rest
      (out.1, out.2.1, call :: out.2.2)

/-- The `for _ in 0..t_cost { for _ in 0..s_cost { step_internal } }` mixing
phase of `Balloon::new` (`hash.rs` lines 62–66), as `n` consecutive internal
steps with `n = s_cost * t_cost`. -/
def mixLoop (H : List Nat → List Nat) (b : Balloon) :
    Nat → Balloon × List (List (List Nat))
  | 0 => (b, [])
  | n + 1 =>
      let s := b.step_internal H
      let out := mixLoop H s.2.1 n
      (out.1, s.2.2 ++ out.2)

/-- `Balloon::new` (`hash.rs` lines 19–69): allocate `s_cost` zero blocks,
fill `block[0] = H(counter++ ∥ password ∥ salt)` and
`block[m] = H(counter++ ∥ block[m-1])`, then run `s_cost * t_cost` internal
mixing steps.  Also returns the trace of all hash invocations performed. -/
def Balloon.new (H : List Nat → List Nat) (passwd salt : List Nat)
    (s_cost t_cost step_delta : Nat) : Balloon × List (List (List Nat)) :=
  let buffer0 := List.replicate s_cost (List.replicate 64 0)
  let block0 := H (intToArr 0 ++ passwd ++ salt)
  let call0 : List (List Nat) := [intToArr 0, passwd, salt]
  let fillOut := fillLoop H (buffer0.set 0 block0) 1 (List.range' 1 (s_cost - 1))
  let b1 : Balloon :=
    { buffer := fillOut.1, salt := salt, step_delta := step_delta,
      cnt := fillOut.2.1, pos := 0 }
  let mixOut := mixLoop H b1 (s_cost * t_cost)
  (mixOut.1, call0 :: fillOut.2.2 ++ mixOut.2)

/-- `Balloon::new` with release-build semantics made explicit: the
`#[cfg(debug_assertions)]` asserts at `hash.rs` lines 27–32 are compiled
out, so the only failure mode left is the out-of-bounds panic of
`res.buffer[0] = …` (`hash.rs` line 51) when `s_cost = 0` leaves the buffer
empty; `none` models that panic.  No `InvalidSettings`-style error value
exists anywhere in the crate. -/
def Balloon.newRelease (H : List Nat → List Nat) (passwd salt : List Nat)
    (s_cost t_cost step_delta : Nat) : Option Balloon :=
  if s_cost = 0 then none
  else some (Balloon.new H passwd salt s_cost t_cost step_delta).1

/-- `Balloon::step` (`hash.rs` lines 119–123): one internal step, then one
extra decoupling hash over the 64-byte result.  The decoupling invocation is
recorded in the trace as `[res]` — its single `update` segment. -/
def Balloon.step (H : List Nat → List Nat) (b : Balloon) :
    List Nat × Balloon × List (List (List Nat)) :=
  let s := b.step_internal H
  (H s.1, s.2.1, s.2.2 ++ [[s.1]])

/-- The first `n` outputs of repeated `Balloon::step` calls. -/
def keystream (H : List Nat → List Nat) (b : Balloon) : Nat → List (List Nat)
  | 0 => []
  | n + 1 =>
      let s := b.step H
      s.1 :: keystream H s.2.1 n

/-- `struct CryptSettings` in `cipher.rs`. -/
structure CryptSettings where
  s_cost : Nat
  t_cost : Nat
  step_delta : Nat
deriving Repr, DecidableEq

/-- `struct Stream` in `cipher.rs` (renamed: `Stream` is taken in Lean): the stream cipher state.  `mask` caches
the current keystream block, `mask_ptr` the index into it, `salt_ptr` the
fold cursor used only by the salt-fold mode. -/
structure StreamCipher where
  balloon : Balloon
  mask : List Nat
  mask_ptr : Nat
  salt_ptr : Nat
deriving Repr, DecidableEq

/-- `StreamCipher::new` (`cipher.rs` lines 56–74): build a fresh Balloon from the
password, salt and settings, take one `step()` as the initial mask, start
both cursors at 0. -/
def StreamCipher.new (H : List Nat → List Nat) (passwd salt : List Nat)
    (settings : CryptSettings) : StreamCipher :=
  let balloon :=
    (Balloon.new H passwd salt settings.s_cost settings.t_cost
      settings.step_delta).1
  let s := balloon.step H
  { balloon := s.2.1, mask := s.1, mask_ptr := 0, salt_ptr := 0 }

/-- `StreamCipher::apply_with_salt` (`cipher.rs` lines 79–90): per byte, refill
the mask from `balloon.step()` when the cursor has reached 64, XOR the byte
with the mask byte, fold the resulting ciphertext byte into the salt
accumulator at `salt_ptr % 64`, and advance both cursors.  Returns the
transformed bytes, the new stream state, and the new accumulator. -/
def StreamCipher.apply_with_salt (H : List Nat → List Nat) :
    StreamCipher → List Nat → List Nat → List Nat × StreamCipher × List Nat
  | st, [], salt => ([], st, salt)
  | st, byte :: rest, salt =>
      let refill : List Nat × Nat × Balloon :=
        if 64 ≤ st.mask_ptr then
          let s := st.balloon.step H
          (s.1, 0, s.2.1)
        else (st.mask, st.mask_ptr, st.balloon)
      let c := byte ^^^ refill.1.getD refill.2.1 0
      let i := st.salt_ptr % 64
      let salt1 := salt.set i (salt.getD i 0 ^^^ c)
      let st1 : StreamCipher :=
        { balloon := refill.2.2, mask := refill.1,
          mask_ptr := refill.2.1 + 1, salt_ptr := st.salt_ptr + 1 }
      let out := StreamCipher.apply_with_salt H st1 rest salt1
      (c :: out.1, out.2.1, out.2.2)

/-- `StreamCipher::apply_with_hash` (`cipher.rs` lines 94–104): identical mask
logic, but each output byte is fed to the running hash context (modelled as
the list of bytes absorbed so far) instead of being folded into a salt; the
fold cursor is untouched. -/
def StreamCipher.apply_with_hash (H : List Nat → List Nat) :
    StreamCipher → List Nat → List Nat → List Nat × StreamCipher × List Nat
  | st, [], hctx => ([], st, hctx)
  | st, byte :: rest, hctx =>
      let refill : List Nat × Nat × Balloon :=
        if 64 ≤ st.mask_ptr then
          let s := st.balloon.step H
          (s.1, 0, s.2.1)
        else (st.mask, st.mask_ptr, st.balloon)
      let c := byte ^^^ refill.1.getD refill.2.1 0
      let st1 : StreamCipher :=
        { balloon := refill.2.2, mask := refill.1,
          mask_ptr := refill.2.1 + 1, salt_ptr := st.salt_ptr }
      let out := StreamCipher.apply_with_hash H st1 rest (hctx ++ [c])
      (c :: out.1, out.2.1, out.2.2)

/-- `StreamCipher::copy_and_apply_with_salt` (`cipher.rs` lines 107–125) viewed on
the sequence of chunks the `src.read` loop delivers: apply `apply_with_salt`
to each chunk in order, concatenating the outputs. -/
def StreamCipher.applyChunksWithSalt (H : List Nat → List Nat) :
    StreamCipher → List (List Nat) → List Nat → List Nat × StreamCipher × List Nat
  | st, [], salt => ([], st, salt)
  | st, chunk :: rest, salt =>
      let o1 := StreamCipher.apply_with_salt H st chunk salt
      let o2 := StreamCipher.applyChunksWithSalt H o1.2.1 rest o1.2.2
      (o1.1 ++ o2.1, o2.2.1, o2.2.2)

/-- `StreamCipher::copy_and_apply_with_hash` (`cipher.rs` lines 127–145) viewed on
the sequence of chunks the `src.read` loop delivers. -/
def StreamCipher.applyChunksWithHash (H : List Nat → List Nat) :
    StreamCipher → List (List Nat) → List Nat → List Nat × StreamCipher × List Nat
  | st, [], hctx => ([], st, hctx)
  | st, chunk :: rest, hctx =>
      let o1 := StreamCipher.apply_with_hash H st chunk hctx
      let o2 := StreamCipher.applyChunksWithHash H o1.2.1 rest o1.2.2
      (o1.1 ++ o2.1, o2.2.1, o2.2.2)

/-- The XOR-fold loop of `decrypt_salt` (`cipher.rs` lines 217–232), with
the running fold cursor made explicit: `salt[ptr % 64] ^= byte` for each
source byte in order.  This is also exactly the accumulator update performed
per ciphertext byte inside `apply_with_salt`. -/
def foldBytes : List Nat → Nat → List Nat → List Nat
  | salt, _, [] => salt
  | salt, ptr, c :: rest =>
      foldBytes (salt.set (ptr % 64) (salt.getD (ptr % 64) 0 ^^^ c)) (ptr + 1) rest

/-- `decrypt_salt` (`cipher.rs` lines 217–232): replay the XOR fold over the
whole ciphertext, starting from a fresh cursor `salt_ptr = 0`, mutating the
salt in place (here: returning the new salt). -/
def decrypt_salt (salt : List Nat) (source : List Nat) : List Nat :=
  foldBytes salt 0 source

/-- `encrypt` (`cipher.rs` lines 177–215).  The fresh random salt from
`gen_salt()` is the explicit argument `rngSalt`; `KDF` is `derive_password`.
Computes `MAC = H(key ∥ payload)`, then encrypts MAC followed by payload
with `apply_with_salt`, folding into an accumulator that starts as the
original salt.  Returns the ciphertext written to `dest` and the final
(folded) salt accumulator, or the key-derivation error. -/
def encrypt (H : List Nat → List Nat) (KDF : List Nat → List Nat → Option (List Nat))
    (payload passwd : List Nat) (settings : CryptSettings) (rngSalt : List Nat) :
    Except String (List Nat × List Nat) :=
  match KDF passwd rngSalt with
  | none => .error "Unable to derive password"
  | some key =>
      let mac := H (key ++ payload)
      let st := StreamCipher.new H key rngSalt settings
      let o1 := st.apply_with_salt H mac rngSalt
      let o2 := o1.2.1.apply_with_salt H payload o1.2.2
      .ok (o1.1 ++ o2.1, o2.2.2)

/-- `decrypt` (`cipher.rs` lines 238–272).  Derives the key, builds the
stream, reads the first 64 ciphertext bytes (`read_exact` fails with an I/O
error when fewer are available — modelled as `.error`), decrypts them with
`apply_with_salt` into a throwaway all-zero accumulator, then stream-decrypts
the rest with `apply_with_hash` into a running hash seeded with the key.
Returns the MAC-comparison boolean paired with the bytes written to `dest`
(empty whenever an error occurs before any write). -/
def decrypt (H : List Nat → List Nat) (KDF : List Nat → List Nat → Option (List Nat))
    (ct passwd decrypted_salt : List Nat) (settings : CryptSettings) :
    Except String Bool × List Nat :=
  match KDF passwd decrypted_salt with
  | none => (.error "Unable to derive password", [])
  | some key =>
      let st := StreamCipher.new H key decrypted_salt settings
      if ct.length < 64 then (.error "failed to fill whole buffer", [])
      else
        let o1 := st.apply_with_salt H (ct.take 64) (List.replicate 64 0)
        let expected_mac := o1.1
        let o2 := o1.2.1.apply_with_hash H (ct.drop 64) key
        let mac := H o2.2.2
        (.ok (expected_mac = mac), o2.1)

/-! ## Concrete instances used by witnesses and counterexamples

The hash primitive and KDF are external (`sha3`, `argon2`); the claims hold
for arbitrary instantiations, so witnesses pick small executable ones. -/

/-- A concrete stand-in for the opaque 64-byte hash primitive. -/
def Hc (l : List Nat) : List Nat :=
  List.replicate 64 ((l.length + l.headD 0) % 256)

/-- A concrete stand-in for the opaque KDF (`derive_password`). -/
def KDFc : List Nat → List Nat → Option (List Nat) :=
  fun p s => some (List.replicate 64 ((p.headD 0 + s.headD 0) % 256))

/-- A concrete hash stand-in whose output reveals the first input byte,
used to observe the order of the hashed segments. -/
def H3 (l : List Nat) : List Nat := [l.headD 0]

/-- A tiny concrete Balloon state (two one-byte blocks, no extra samples). -/
def b3 : Balloon :=
  { buffer := [[3], [4]], salt := [], step_delta := 0, cnt := 0, pos := 0 }

/-- A concrete hash stand-in with 64-byte output. -/
def H9 (l : List Nat) : List Nat := List.replicate 64 (l.length % 256)

/-- A tiny concrete Balloon state with one 64-byte block. -/
def b9 : Balloon :=
  { buffer := [List.replicate 64 0], salt := [], step_delta := 0, cnt := 0,
    pos := 0 }

/-- A concrete 64-byte salt. -/
def saltc : List Nat := List.replicate 64 5

/-! ## List helper lemmas -/

theorem intToArr_length (v : Nat) : (intToArr v).length = 8 := by
  simp [intToArr]

theorem getD_set_self (l : List Nat) (i v : Nat) (h : i < l.length) :
    (l.set i v).getD i 0 = v := by
  simp [List.getD, List.getElem?_set_self', List.getElem?_eq_getElem h]

theorem getD_set_ne (l : List Nat) (i j v : Nat) (h : i ≠ j) :
    (l.set i v).getD j 0 = l.getD j 0 := by
  simp [List.getD, List.getElem?_set_ne h]

theorem set_getD_self (l : List Nat) (i : Nat) (h : i < l.length) :
    l.set i (l.getD i 0) = l := by
  have h2 : l.getD i 0 = l[i] := by simp [List.getD, List.getElem?_eq_getElem h]
  rw [h2]
  apply List.ext_getElem
  · simp
  · intro j hj hj'
    simp only [List.getElem_set]
    split
    · rename_i hij; subst hij; rfl
    · rfl

/-! ## XOR-fold lemmas -/

theorem foldBytes_length (xs : List Nat) :
    ∀ a p, (foldBytes a p xs).length = a.length := by
  induction xs with
  | nil => intro a p; rfl
  | cons c xs ih => intro a p; simp [foldBytes, ih]

theorem foldBytes_append (xs : List Nat) :
    ∀ ys a p, foldBytes a p (xs ++ ys) =
      foldBytes (foldBytes a p xs) (p + xs.length) ys := by
  induction xs with
  | nil => intro ys a p; simp [foldBytes]
  | cons c xs ih =>
      intro ys a p
      simp only [List.cons_append, foldBytes, List.length_cons, List.append_eq]
      rw [ih]
      congr 1
      omega

/-- Two successive XOR updates at the same position commute. -/
theorem setXor_twice (a : List Nat) (j c d : Nat) (hj : j < a.length) :
    (a.set j (a.getD j 0 ^^^ d)).set j
        ((a.set j (a.getD j 0 ^^^ d)).getD j 0 ^^^ c) =
      (a.set j (a.getD j 0 ^^^ c)).set j
        ((a.set j (a.getD j 0 ^^^ c)).getD j 0 ^^^ d) := by
  rw [getD_set_self a _ _ hj, getD_set_self a _ _ hj, List.set_set, List.set_set,
    Nat.xor_assoc, Nat.xor_assoc, Nat.xor_comm d c]

/-- XOR updates at distinct positions commute. -/
theorem setXor_comm_ne (a : List Nat) (i j c d : Nat) (hij : i ≠ j) :
    (a.set i (a.getD i 0 ^^^ d)).set j
        ((a.set i (a.getD i 0 ^^^ d)).getD j 0 ^^^ c) =
      (a.set j (a.getD j 0 ^^^ c)).set i
        ((a.set j (a.getD j 0 ^^^ c)).getD i 0 ^^^ d) := by
  rw [getD_set_ne a i j _ hij, getD_set_ne a j i _ (Ne.symm hij),
    List.set_comm _ _ _ hij]

/-- XOR-updating one accumulator position commutes with the whole fold:
folding only ever XORs into positions, and XOR is associative and
commutative. -/
theorem foldBytes_set (xs : List Nat) :
    ∀ a p i d, a.length = 64 → i < 64 →
      foldBytes (a.set i (a.getD i 0 ^^^ d)) p xs =
        (foldBytes a p xs).set i ((foldBytes a p xs).getD i 0 ^^^ d) := by
  induction xs with
  | nil => intro a p i d _ _; rfl
  | cons c xs ih =>
      intro a p i d hlen hi
      have hiLen : i < a.length := hlen ▸ hi
      by_cases hij : i = p % 64
      · subst hij
        simp only [foldBytes]
        rw [setXor_twice a _ c d hiLen]
        exact ih _ (p + 1) _ d (by simpa using hlen) hi
      · simp only [foldBytes]
        rw [setXor_comm_ne a i _ c d hij]
        exact ih _ (p + 1) i d (by simpa using hlen) hi

/-- Replaying the XOR fold with the same byte sequence from the same cursor
is the identity: each position is XORed with the same values twice. -/
theorem foldBytes_foldBytes (xs : List Nat) :
    ∀ a p, a.length = 64 → foldBytes (foldBytes a p xs) p xs = a := by
  induction xs with
  | nil => intro a p _; rfl
  | cons c xs ih =>
      intro a p hlen
      have hj : p % 64 < 64 := Nat.mod_lt _ (by norm_num)
      simp only [foldBytes]
      rw [← foldBytes_set xs _ (p + 1) (p % 64) c (by simpa using hlen) hj]
      have e3 : (a.set (p % 64) (a.getD (p % 64) 0 ^^^ c)).set (p % 64)
          ((a.set (p % 64) (a.getD (p % 64) 0 ^^^ c)).getD (p % 64) 0 ^^^ c) = a := by
        rw [getD_set_self a _ _ (hlen ▸ hj), List.set_set,
          Nat.xor_assoc, Nat.xor_self, Nat.xor_zero, set_getD_self a _ (hlen ▸ hj)]
      rw [e3]
      exact ih a (p + 1) hlen

/-! ## Stream-cipher lemmas -/

theorem applySalt_length (H : List Nat → List Nat) (xs : List Nat) :
    ∀ st a, (StreamCipher.apply_with_salt H st xs a).1.length = xs.length := by
  induction xs with
  | nil => intro st a; rfl
  | cons x xs ih =>
      intro st a
      simp only [StreamCipher.apply_with_salt, List.length_cons, ih]

theorem applySalt_salt_ptr (H : List Nat → List Nat) (xs : List Nat) :
    ∀ st a, (StreamCipher.apply_with_salt H st xs a).2.1.salt_ptr
      = st.salt_ptr + xs.length := by
  induction xs with
  | nil => intro st a; rfl
  | cons x xs ih =>
      intro st a
      simp only [StreamCipher.apply_with_salt, ih, List.length_cons]
      omega

/-- The stream state after `apply_with_salt` depends only on the starting
state and the number of bytes processed, never on the byte values or the
accumulator: the mask refill schedule is driven purely by `mask_ptr`. -/
theorem applySalt_state_of_length (H : List Nat → List Nat) (xs : List Nat) :
    ∀ ys st a b, xs.length = ys.length →
      (StreamCipher.apply_with_salt H st xs a).2.1
        = (StreamCipher.apply_with_salt H st ys b).2.1 := by
  induction xs with
  | nil =>
      intro ys st a b h
      cases ys with
      | nil => rfl
      | cons y ys => simp at h
  | cons x xs ih =>
      intro ys st a b h
      cases ys with
      | nil => simp at h
      | cons y ys =>
          simp only [StreamCipher.apply_with_salt]
          exact ih ys _ _ _ (by simpa using h)

/-- Decrypting its own output returns a stream to the data:
XOR with the same keystream byte twice is the identity, and the keystream
schedule is independent of the data and of the accumulators. -/
theorem applySalt_applySalt (H : List Nat → List Nat) (xs : List Nat) :
    ∀ st a b,
      (StreamCipher.apply_with_salt H st
        (StreamCipher.apply_with_salt H st xs a).1 b).1 = xs := by
  induction xs with
  | nil => intro st a b; rfl
  | cons x xs ih =>
      intro st a b
      simp only [StreamCipher.apply_with_salt, List.cons.injEq]
      exact ⟨Nat.xor_cancel_right _ x, ih _ _ _⟩

/-- The accumulator produced by `apply_with_salt` is exactly the XOR fold of
the ciphertext bytes it emitted, starting at the current fold cursor. -/
theorem applySalt_acc (H : List Nat → List Nat) (xs : List Nat) :
    ∀ st a, (StreamCipher.apply_with_salt H st xs a).2.2
      = foldBytes a st.salt_ptr (StreamCipher.apply_with_salt H st xs a).1 := by
  induction xs with
  | nil => intro st a; rfl
  | cons x xs ih =>
      intro st a
      simp only [StreamCipher.apply_with_salt, foldBytes]
      exact ih _ _

/-- `apply_with_hash` produces the same ciphertext bytes as
`apply_with_salt` from any stream state that agrees on the keystream core
(`balloon`, `mask`, `mask_ptr`); the two differ only in their side
accumulator and in the fold cursor, which the XOR core never reads. -/
theorem applyHash_out_eq_applySalt (H : List Nat → List Nat) (xs : List Nat) :
    ∀ bal mask mp q sp a h,
      (StreamCipher.apply_with_hash H ⟨bal, mask, mp, q⟩ xs h).1
        = (StreamCipher.apply_with_salt H ⟨bal, mask, mp, sp⟩ xs a).1 := by
  induction xs with
  | nil => intro bal mask mp q sp a h; rfl
  | cons x xs ih =>
      intro bal mask mp q sp a h
      simp only [StreamCipher.apply_with_hash, StreamCipher.apply_with_salt,
        List.cons.injEq, true_and]
      exact ih _ _ _ q (sp + 1) _ _

/-- The running hash context after `apply_with_hash` is the old context
followed by exactly the emitted bytes. -/
theorem applyHash_hctx (H : List Nat → List Nat) (xs : List Nat) :
    ∀ st h, (StreamCipher.apply_with_hash H st xs h).2.2
      = h ++ (StreamCipher.apply_with_hash H st xs h).1 := by
  induction xs with
  | nil => intro st h; simp [StreamCipher.apply_with_hash]
  | cons x xs ih =>
      intro st h
      simp only [StreamCipher.apply_with_hash]
      rw [ih]
      simp

/-- `apply_with_salt` over a concatenation equals the two applications in
sequence (outputs concatenate, state and accumulator thread through). -/
theorem applySalt_append (H : List Nat → List Nat) (xs : List Nat) :
    ∀ ys st a,
      StreamCipher.apply_with_salt H st (xs ++ ys) a =
        ((StreamCipher.apply_with_salt H st xs a).1 ++
          (StreamCipher.apply_with_salt H (StreamCipher.apply_with_salt H st xs a).2.1
            ys (StreamCipher.apply_with_salt H st xs a).2.2).1,
         (StreamCipher.apply_with_salt H (StreamCipher.apply_with_salt H st xs a).2.1
            ys (StreamCipher.apply_with_salt H st xs a).2.2).2) := by
  induction xs with
  | nil => intro ys st a; simp [StreamCipher.apply_with_salt]
  | cons x xs ih =>
      intro ys st a
      simp only [List.cons_append, StreamCipher.apply_with_salt, ih,
        List.append_eq]

/-- `apply_with_hash` over a concatenation equals the two applications in
sequence. -/
theorem applyHash_append (H : List Nat → List Nat) (xs : List Nat) :
    ∀ ys st h,
      StreamCipher.apply_with_hash H st (xs ++ ys) h =
        ((StreamCipher.apply_with_hash H st xs h).1 ++
          (StreamCipher.apply_with_hash H (StreamCipher.apply_with_hash H st xs h).2.1
            ys (StreamCipher.apply_with_hash H st xs h).2.2).1,
         (StreamCipher.apply_with_hash H (StreamCipher.apply_with_hash H st xs h).2.1
            ys (StreamCipher.apply_with_hash H st xs h).2.2).2) := by
  induction xs with
  | nil => intro ys st h; simp [StreamCipher.apply_with_hash]
  | cons x xs ih =>
      intro ys st h
      simp only [List.cons_append, StreamCipher.apply_with_hash, ih,
        List.append_eq]

/-! ## Counter and trace lemmas for the Balloon generator -/

theorem deltaLoop_cnt (H : List Nat → List Nat) (salt : List Nat) (is : List Nat) :
    ∀ buffer pos cnt, (deltaLoop H salt buffer pos cnt is).2.1
      = cnt + 2 * is.length := by
  induction is with
  | nil => intro buffer pos cnt; rfl
  | cons i rest ih =>
      intro buffer pos cnt
      simp only [deltaLoop, ih, List.length_cons]
      omega

theorem step_internal_cnt (H : List Nat → List Nat) (b : Balloon) :
    (b.step_internal H).2.1.cnt = b.cnt + 1 + 2 * b.step_delta := by
  simp only [Balloon.step_internal, deltaLoop_cnt, List.length_range]

theorem deltaLoop_calls (H : List Nat → List Nat) (salt : List Nat) (is : List Nat) :
    ∀ buffer pos cnt, ∀ call ∈ (deltaLoop H salt buffer pos cnt is).2.2,
      ∃ c, intToArr c ∈ call := by
  induction is with
  | nil => intro buffer pos cnt call h; simp [deltaLoop] at h
  | cons i rest ih =>
      intro buffer pos cnt call h
      simp only [deltaLoop, List.mem_cons] at h
      rcases h with h | h | h
      · exact ⟨cnt, by simp [h]⟩
      · exact ⟨cnt + 1, by simp [h]⟩
      · exact ih _ _ _ call h

theorem step_internal_calls (H : List Nat → List Nat) (b : Balloon) :
    ∀ call ∈ (b.step_internal H).2.2, ∃ c, intToArr c ∈ call := by
  intro call h
  simp only [Balloon.step_internal, List.mem_cons] at h
  rcases h with h | h
  · exact ⟨b.cnt, by simp [h]⟩
  · exact deltaLoop_calls H b.salt _ _ _ _ call h

theorem fillLoop_calls (H : List Nat → List Nat) (ms : List Nat) :
    ∀ buffer cnt, ∀ call ∈ (fillLoop H buffer cnt ms).2.2,
      ∃ c, intToArr c ∈ call := by
  induction ms with
  | nil => intro buffer cnt call h; simp [fillLoop] at h
  | cons m rest ih =>
      intro buffer cnt call h
      simp only [fillLoop, List.mem_cons] at h
      rcases h with h | h
      · exact ⟨cnt, by simp [h]⟩
      · exact ih _ _ call h

theorem mixLoop_calls (H : List Nat → List Nat) (n : Nat) :
    ∀ b, ∀ call ∈ (mixLoop H b n).2, ∃ c, intToArr c ∈ call := by
  induction n with
  | zero => intro b call h; simp [mixLoop] at h
  | succ n ih =>
      intro b call h
      simp only [mixLoop, List.mem_append] at h
      rcases h with h | h
      · exact step_internal_calls H b call h
      · exact ih _ call h

theorem new_calls (H : List Nat → List Nat) (passwd salt : List Nat)
    (s_cost t_cost step_delta : Nat) :
    ∀ call ∈ (Balloon.new H passwd salt s_cost t_cost step_delta).2,
      ∃ c, intToArr c ∈ call := by
  intro call h
  simp only [Balloon.new, List.mem_cons, List.mem_append] at h
  rcases h with (h | h) | h
  · exact ⟨0, by simp [h]⟩
  · exact fillLoop_calls H _ _ _ call h
  · exact mixLoop_calls H _ _ call h

/-! ## Claim theorems -/

/-- **C2.** The claim says invalid settings are rejected by a normal,
always-enabled runtime check surfacing an explicit `InvalidSettings` error.
In the code the check is a `#[cfg(debug_assertions)]` assert only
(`hash.rs` lines 27–32); in a release build, `s_cost = 0` reaches the
out-of-bounds write `res.buffer[0] = …` and panics — there is no
`InvalidSettings` error value anywhere.  This theorem evaluates the
release-build model at the failing input: the result is the modelled panic
(`none`), not an error value returned to the caller. -/
theorem C2_no_release_settings_check (H : List Nat → List Nat)
    (passwd salt : List Nat) (t_cost step_delta : Nat) :
    Balloon.newRelease H passwd salt 0 t_cost step_delta = none := by
  simp [Balloon.newRelease]

/-- **C3 (counterexample).** The claim states
`block[position] = H(counter++ ∥ prev ∥ block[position])`.  The code
(`hash.rs` lines 86–90) feeds `prev` to the hasher *first*, then the
counter, then the old block.  At a concrete state whose hash reveals the
first hashed byte, the claimed value differs from the computed one. -/
theorem C3_counterexample :
    ¬ ((b3.step_internal H3).2.1.buffer.getD b3.pos []
        = H3 (intToArr b3.cnt ++ b3.buffer.getD (b3.buffer.length - 1) []
            ++ b3.buffer.getD b3.pos [])) := by
  decide

/-- **C3 (amended).** In every internal mixing step the block at the current
position is replaced by `H(prev ∥ counter++ ∥ block[position])` — the
designated prev block first, then the counter, then the old block: the
first hash invocation's update segments are exactly
`[prev, counter-bytes, old block]`, and the buffer handed to the
`step_delta` sampling loop is the buffer with exactly that hash written at
the current position. -/
theorem C3_block_update_order (H : List Nat → List Nat) (b : Balloon) :
    (b.step_internal H).2.2.headD []
      = [(if b.pos = 0 then b.buffer.getD (b.buffer.length - 1) []
          else b.buffer.getD b.pos []),
         intToArr b.cnt, b.buffer.getD b.pos []] ∧
    (b.step_internal H).2.1.buffer
      = (deltaLoop H b.salt
          (b.buffer.set b.pos
            (H ((if b.pos = 0 then b.buffer.getD (b.buffer.length - 1) []
                else b.buffer.getD b.pos [])
              ++ intToArr b.cnt ++ b.buffer.getD b.pos [])))
          b.pos (b.cnt + 1) (List.range b.step_delta)).1 :=
  ⟨rfl, rfl⟩

/-- **C4.** The designated prev block — the first update segment of the
first hash invocation of every internal mixing step — is
`block[s_cost-1]` when the current position is 0 and `block[position]`
itself (not `block[position-1]`) otherwise. -/
theorem C4_prev_selection (H : List Nat → List Nat) (b : Balloon) :
    ((b.step_internal H).2.2.headD []).headD []
      = if b.pos = 0 then b.buffer.getD (b.buffer.length - 1) []
        else b.buffer.getD b.pos [] :=
  rfl

/-- **C5.** Chunking invariance: applying `apply_with_salt` /
`apply_with_hash` chunk by chunk over any partition of a byte sequence
(which is what `copy_and_apply_with_salt` / `copy_and_apply_with_hash` do
with their bounded read buffer) gives exactly the same ciphertext, final
stream state, and accumulator as one application to the whole sequence. -/
theorem C5_chunking_invariance (H : List Nat → List Nat)
    (chunks : List (List Nat)) :
    ∀ st a h,
      StreamCipher.applyChunksWithSalt H st chunks a
        = StreamCipher.apply_with_salt H st chunks.flatten a ∧
      StreamCipher.applyChunksWithHash H st chunks h
        = StreamCipher.apply_with_hash H st chunks.flatten h := by
  induction chunks with
  | nil => intro st a h; exact ⟨rfl, rfl⟩
  | cons c cs ih =>
      intro st a h
      constructor
      · rw [List.flatten_cons, applySalt_append]
        simp only [StreamCipher.applyChunksWithSalt, (ih _ _ h).1]
      · rw [List.flatten_cons, applyHash_append]
        simp only [StreamCipher.applyChunksWithHash, (ih _ a _).2]

/-- **C6.** Keystream-coupling equivalence: on stream ciphers constructed
with the same password, salt and settings, `apply_with_hash` and
`apply_with_salt` produce byte-identical ciphertext for the same plaintext;
they differ only in the side accumulator. -/
theorem C6_coupling_equivalence (H : List Nat → List Nat)
    (passwd salt : List Nat) (settings : CryptSettings)
    (data saltAcc hctx : List Nat) :
    (StreamCipher.apply_with_hash H
      (StreamCipher.new H passwd salt settings) data hctx).1
      = (StreamCipher.apply_with_salt H
          (StreamCipher.new H passwd salt settings) data saltAcc).1 :=
  applyHash_out_eq_applySalt H data _ _ _ _ _ _ _

/-- **C7.** Fold invertibility: for a 64-byte salt and any ciphertext
(places both as the abstract XOR fold and as the accumulator actually
produced by `apply_with_salt` on a fresh fold cursor), replaying
`decrypt_salt` over the same ciphertext recovers the original salt
exactly. -/
theorem C7_fold_invertibility (salt ct : List Nat) (hlen : salt.length = 64) :
    decrypt_salt (foldBytes salt 0 ct) ct = salt ∧
    ∀ (H : List Nat → List Nat) (st : StreamCipher) (data : List Nat),
      st.salt_ptr = 0 →
      decrypt_salt ((StreamCipher.apply_with_salt H st data salt).2.2)
        ((StreamCipher.apply_with_salt H st data salt).1) = salt := by
  constructor
  · exact foldBytes_foldBytes ct salt 0 hlen
  · intro H st data hptr
    rw [applySalt_acc H data st salt, hptr]
    exact foldBytes_foldBytes _ salt 0 hlen

/-- Witness for C7 at a concrete salt and ciphertext. -/
theorem C7_witness :
    saltc.length = 64 ∧
    (decrypt_salt (foldBytes saltc 0 [1, 2, 250]) [1, 2, 250] = saltc ∧
      ∀ (H : List Nat → List Nat) (st : StreamCipher) (data : List Nat),
        st.salt_ptr = 0 →
        decrypt_salt ((StreamCipher.apply_with_salt H st data saltc).2.2)
          ((StreamCipher.apply_with_salt H st data saltc).1) = saltc) :=
  ⟨by decide, C7_fold_invertibility saltc [1, 2, 250] (by decide)⟩

/-- **C8.** Determinism: two generators constructed from equal passwords,
salts and settings produce byte-for-byte equal `step()` output sequences of
every length. -/
theorem C8_determinism (H : List Nat → List Nat) (p1 p2 salt1 salt2 : List Nat)
    (s1 s2 : CryptSettings) (n : Nat)
    (hp : p1 = p2) (hs : salt1 = salt2) (hc : s1 = s2) :
    keystream H (Balloon.new H p1 salt1 s1.s_cost s1.t_cost s1.step_delta).1 n
      = keystream H (Balloon.new H p2 salt2 s2.s_cost s2.t_cost s2.step_delta).1 n := by
  subst hp
  subst hs
  subst hc
  rfl

/-- Witness for C8 at concrete parameters. -/
theorem C8_witness :
    ([1] : List Nat) = [1] ∧ ([2] : List Nat) = [2] ∧
    (⟨1, 1, 1⟩ : CryptSettings) = ⟨1, 1, 1⟩ ∧
    keystream Hc (Balloon.new Hc [1] [2]
        (⟨1, 1, 1⟩ : CryptSettings).s_cost (⟨1, 1, 1⟩ : CryptSettings).t_cost
        (⟨1, 1, 1⟩ : CryptSettings).step_delta).1 2
      = keystream Hc (Balloon.new Hc [1] [2]
          (⟨1, 1, 1⟩ : CryptSettings).s_cost (⟨1, 1, 1⟩ : CryptSettings).t_cost
          (⟨1, 1, 1⟩ : CryptSettings).step_delta).1 2 :=
  ⟨rfl, rfl, rfl,
    C8_determinism Hc [1] [1] [2] [2] ⟨1, 1, 1⟩ ⟨1, 1, 1⟩ 2 rfl rfl rfl⟩

/-- **C9 (counterexample).** Not every hash invocation of `step()` takes the
counter: the extra output-decoupling hash (`hash.rs` lines 119–123) hashes
only the 64-byte internal result, so at a concrete state its invocation
contains no 8-byte counter segment at all. -/
theorem C9_counterexample :
    ¬ (∀ call ∈ (b9.step H9).2.2, ∃ c, intToArr c ∈ call) := by
  intro hall
  obtain ⟨c, hc⟩ := hall [(b9.step_internal H9).1] (by simp [Balloon.step])
  have h1 : intToArr c = (b9.step_internal H9).1 := by simpa using hc
  have h2 : (intToArr c).length = 8 := intToArr_length c
  rw [h1] at h2
  have h3 : ((b9.step_internal H9).1).length = 64 := by decide
  omega

/-- **C9 (amended).** The counter strictly increases with every `step()`
(by exactly `1 + 2 * step_delta`) and is never reset; every hash invocation
of the internal mixing step, and every hash invocation made during
construction (`Balloon::new`), takes some counter value as one of its
update segments; but the extra output-decoupling hash of `step()` hashes
exactly the internal result block and nothing else. -/
theorem C9_counter_monotone (H : List Nat → List Nat) (b : Balloon)
    (passwd salt : List Nat) (s_cost t_cost step_delta : Nat) :
    b.cnt < (b.step H).2.1.cnt ∧
    (b.step H).2.1.cnt = b.cnt + 1 + 2 * b.step_delta ∧
    (∀ call ∈ (b.step_internal H).2.2, ∃ c, intToArr c ∈ call) ∧
    (∀ call ∈ (Balloon.new H passwd salt s_cost t_cost step_delta).2,
      ∃ c, intToArr c ∈ call) ∧
    (b.step H).2.2 = (b.step_internal H).2.2 ++ [[(b.step_internal H).1]] := by
  have hcnt : (b.step H).2.1.cnt = b.cnt + 1 + 2 * b.step_delta :=
    step_internal_cnt H b
  exact ⟨by omega, hcnt, step_internal_calls H b,
    new_calls H passwd salt _ _ _, rfl⟩

/-- **C10.** `decrypt` on a ciphertext source shorter than 64 bytes: the
`read_exact` of the MAC block fails, the call returns an I/O error rather
than a boolean, and nothing has been written to the destination. -/
theorem C10_short_ciphertext (H : List Nat → List Nat)
    (KDF : List Nat → List Nat → Option (List Nat))
    (ct passwd salt : List Nat) (settings : CryptSettings)
    (hlen : ct.length < 64) :
    (∃ e, (decrypt H KDF ct passwd salt settings).1 = .error e) ∧
      (decrypt H KDF ct passwd salt settings).2 = [] := by
  unfold decrypt
  cases hk : KDF passwd salt with
  | none => exact ⟨⟨_, rfl⟩, rfl⟩
  | some key =>
      refine ⟨⟨"failed to fill whole buffer", ?_⟩, ?_⟩ <;> simp [hlen]

/-- Witness for C10 at a concrete 3-byte ciphertext. -/
theorem C10_witness :
    ([1, 2, 3] : List Nat).length < 64 ∧
    ((∃ e, (decrypt Hc KDFc [1, 2, 3] [] [] ⟨1, 1, 1⟩).1 = .error e) ∧
      (decrypt Hc KDFc [1, 2, 3] [] [] ⟨1, 1, 1⟩).2 = []) :=
  ⟨by decide, C10_short_ciphertext Hc KDFc [1, 2, 3] [] [] ⟨1, 1, 1⟩ (by decide)⟩

/-- Core of the round trip: from the two encryption passes (MAC block, then
payload) over a fresh stream, decryption recovers the MAC, the payload, the
running-hash input, and the original salt. -/
theorem roundtrip_core (H : List Nat → List Nat) (st0 : StreamCipher)
    (mac payload rngSalt key ct1 ct2 fs : List Nat)
    (st1 : StreamCipher) (acc1 : List Nat) (st2 : StreamCipher)
    (hsp0 : st0.salt_ptr = 0) (hm64 : mac.length = 64)
    (hsalt : rngSalt.length = 64)
    (hA : StreamCipher.apply_with_salt H st0 mac rngSalt = (ct1, st1, acc1))
    (hB : StreamCipher.apply_with_salt H st1 payload acc1 = (ct2, st2, fs)) :
    decrypt_salt fs (ct1 ++ ct2) = rngSalt ∧
    (ct1 ++ ct2).take 64 = ct1 ∧
    (ct1 ++ ct2).drop 64 = ct2 ∧
    (StreamCipher.apply_with_salt H st0 ct1 (List.replicate 64 0)).1 = mac ∧
    (StreamCipher.apply_with_salt H st0 ct1 (List.replicate 64 0)).2.1 = st1 ∧
    (StreamCipher.apply_with_hash H st1 ct2 key).1 = payload ∧
    (StreamCipher.apply_with_hash H st1 ct2 key).2.2 = key ++ payload := by
  have hct1 : ct1 = (StreamCipher.apply_with_salt H st0 mac rngSalt).1 := by
    rw [hA]
  have hct1len : ct1.length = 64 := by
    rw [hct1, applySalt_length H mac st0 rngSalt]
    exact hm64
  have htake : (ct1 ++ ct2).take 64 = ct1 := by rw [← hct1len]; simp
  have hdrop : (ct1 ++ ct2).drop 64 = ct2 := by rw [← hct1len]; simp
  have hmacdec :
      (StreamCipher.apply_with_salt H st0 ct1 (List.replicate 64 0)).1 = mac := by
    rw [hct1]
    exact applySalt_applySalt H mac st0 rngSalt _
  have hstate :
      (StreamCipher.apply_with_salt H st0 ct1 (List.replicate 64 0)).2.1 = st1 := by
    have h0 := applySalt_state_of_length H ct1 mac st0 (List.replicate 64 0)
      rngSalt (by rw [hct1len, hm64])
    rw [hA] at h0
    simpa using h0
  have hsp1 : st1.salt_ptr = 64 := by
    have h0 := applySalt_salt_ptr H mac st0 rngSalt
    rw [hA] at h0
    simp only at h0
    rw [hsp0, hm64] at h0
    simpa using h0
  have hacc1 : acc1 = foldBytes rngSalt 0 ct1 := by
    have h0 := applySalt_acc H mac st0 rngSalt
    rw [hA] at h0
    simp only at h0
    rw [hsp0] at h0
    exact h0
  have hfs : fs = foldBytes rngSalt 0 (ct1 ++ ct2) := by
    have h0 := applySalt_acc H payload st1 acc1
    rw [hB] at h0
    simp only at h0
    rw [hsp1, hacc1] at h0
    rw [foldBytes_append ct1 ct2 rngSalt 0]
    simpa [hct1len] using h0
  have hrec : decrypt_salt fs (ct1 ++ ct2) = rngSalt := by
    rw [hfs]
    exact foldBytes_foldBytes (ct1 ++ ct2) rngSalt 0 hsalt
  have hpayload : (StreamCipher.apply_with_hash H st1 ct2 key).1 = payload := by
    have h1 : (StreamCipher.apply_with_hash H st1 ct2 key).1
        = (StreamCipher.apply_with_salt H st1 ct2 acc1).1 :=
      applyHash_out_eq_applySalt H ct2 st1.balloon st1.mask st1.mask_ptr
        st1.salt_ptr st1.salt_ptr acc1 key
    rw [h1]
    have hct2 : ct2 = (StreamCipher.apply_with_salt H st1 payload acc1).1 := by
      rw [hB]
    rw [hct2]
    exact applySalt_applySalt H payload st1 acc1 acc1
  have hctx2 : (StreamCipher.apply_with_hash H st1 ct2 key).2.2
      = key ++ payload := by
    rw [applyHash_hctx H ct2 st1 key, hpayload]
  exact ⟨hrec, htake, hdrop, hmacdec, hstate, hpayload, hctx2⟩

/-- **C1.** Round trip: for any hash primitive producing 64-byte digests,
any successful key derivation, any positive settings, any 64-byte random
salt, and any payload, `encrypt` produces a ciphertext and folded salt such
that `decrypt_salt` recovers the original salt from the folded salt and the
full ciphertext, and `decrypt` with the same password and settings returns
`true` and writes exactly the original payload to the destination. -/
theorem C1_roundtrip (H : List Nat → List Nat)
    (KDF : List Nat → List Nat → Option (List Nat))
    (payload passwd rngSalt key : List Nat) (settings : CryptSettings)
    (hH : ∀ l, (H l).length = 64)
    (hKDF : KDF passwd rngSalt = some key)
    (hsalt : rngSalt.length = 64)
    (hs : 0 < settings.s_cost) (ht : 0 < settings.t_cost)
    (hd : 0 < settings.step_delta) :
    ∃ ct foldedSalt,
      encrypt H KDF payload passwd settings rngSalt = .ok (ct, foldedSalt) ∧
      decrypt_salt foldedSalt ct = rngSalt ∧
      decrypt H KDF ct passwd (decrypt_salt foldedSalt ct) settings
        = (.ok true, payload) := by
  rcases hA : StreamCipher.apply_with_salt H
      (StreamCipher.new H key rngSalt settings) (H (key ++ payload)) rngSalt
    with ⟨ct1, st1, acc1⟩
  rcases hB : StreamCipher.apply_with_salt H st1 payload acc1
    with ⟨ct2, st2, fs⟩
  obtain ⟨hrec, htake, hdrop, hmacdec, hstate, hpayload, hctx2⟩ :=
    roundtrip_core H (StreamCipher.new H key rngSalt settings)
      (H (key ++ payload)) payload rngSalt key ct1 ct2 fs st1 acc1 st2
      rfl (hH (key ++ payload)) hsalt hA hB
  have hct1len : ct1.length = 64 := by
    have h0 := applySalt_length H (H (key ++ payload))
      (StreamCipher.new H key rngSalt settings) rngSalt
    rw [hA] at h0
    simpa [hH (key ++ payload)] using h0
  have hlen64 : ¬ (ct1 ++ ct2).length < 64 := by
    rw [List.length_append, hct1len]
    omega
  refine ⟨ct1 ++ ct2, fs, ?_, hrec, ?_⟩
  · unfold encrypt
    rw [hKDF]
    simp only [hA, hB]
  · rw [hrec]
    unfold decrypt
    rw [hKDF]
    simp only [if_neg hlen64, htake, hdrop, hstate, hmacdec, hctx2, hpayload]
    simp

/-- Witness for C1 at a concrete hash, KDF, password, salt and payload. -/
theorem C1_witness :
    KDFc [7] saltc = some (List.replicate 64 12) ∧
    saltc.length = 64 ∧
    (∃ ct foldedSalt,
      encrypt Hc KDFc [10, 20, 30] [7] ⟨1, 1, 1⟩ saltc = .ok (ct, foldedSalt) ∧
      decrypt_salt foldedSalt ct = saltc ∧
      decrypt Hc KDFc ct [7] (decrypt_salt foldedSalt ct) ⟨1, 1, 1⟩
        = (.ok true, [10, 20, 30])) :=
  ⟨by decide, by decide,
    C1_roundtrip Hc KDFc [10, 20, 30] [7] saltc (List.replicate 64 12)
      ⟨1, 1, 1⟩ (fun l => by simp [Hc]) (by decide) (by decide)
      (by decide) (by decide) (by decide)⟩
